import Mathlib

/-!
Verification development for the asciinema-player recording driver
(src/driver/recording.js).

The driver is embedded shallowly:

* frame timestamps and clock values are rationals (the JS code uses
  IEEE doubles; every claim checked here involves only exact
  arithmetic);
* a `Frame` is a pair `(timeOffsetSeconds, payload)` as in the source;
* the `idleTimeLimit` is an `Option ℚ`, `none` standing for the
  JS `Infinity` / "unbounded" default (a subtraction against `Infinity`
  can never be `> 0`, which is exactly how the source uses it);
* the mutable closure variables of `recording()` become the fields of
  an explicit `Engine` record, and every transport operation becomes a
  pure function `Engine → Engine × List Event`, where `Event` records
  the calls made to the external `feed` and `setState` collaborators;
* the wall clock `now()` becomes an explicit argument of each
  operation that reads it.
-/

namespace Recording

/-- A frame, as in the source: `[timeOffsetSeconds, payload]`. -/
abbrev Frame := ℚ × String

/-- The terminal reset sequence `'\x1bc'` fed on backward seek and loop
restart. -/
def resetSeq : String := "\x1bc"

/-- A call made to an external collaborator: `feed(data)` or
`setState(name, {reason})`. -/
inductive Event where
  | feed (data : String)
  | setState (name : String) (reason : String)
deriving DecidableEq, Repr

/-! ## FrameBatcher (`batchFrames`, recording.js lines 225-260)

`batchFrames` pipes the input through `Stream.transform` with a
`step`/`flush` pair.  Modelled from the spec: the `Stream` helper
itself (src/stream.js) is not part of the given sources; per the spec
it provides a "lazy, finite, non-restartable ordered sequence", so
`transform` applies `step` to every element in order and `flush` once
at the end, collecting the frames passed to `emit`.  The `step` and
`flush` bodies below are translated from the source; the `ic`/`oc`
counters only feed `logger.debug` and are dropped. -/

/-- The batching loop: `prev` is the buffered `prevFrame`.
`step`: a frame closer than `minFrameTime` to the buffered frame's
(kept) time is merged into it by payload concatenation, otherwise the
buffered frame is emitted; `flush` emits the final buffered frame. -/
def batchGo (minFrameTime : ℚ) : Frame → List Frame → List Frame
  | prev, [] => [prev]
  | prev, f :: rest =>
    if f.1 - prev.1 < minFrameTime then
      batchGo minFrameTime (prev.1, prev.2 ++ f.2) rest
    else
      prev :: batchGo minFrameTime f rest

/-- `batchFrames(frames, logger, minFrameTime)`: the first frame is
buffered (`prevFrame === undefined` branch), then `batchGo` runs the
`step`/`flush` protocol.  The JS default `minFrameTime = 1.0 / 60` is
supplied by callers of this definition. -/
def batchFrames (minFrameTime : ℚ) : List Frame → List Frame
  | [] => []
  | f :: rest => batchGo minFrameTime f rest

/-! ## TimelineCompressor (`prepareFrames`, recording.js lines 262-291) -/

/-- `delay - idleTimeLimit > 0`, with `none` as `Infinity` (in JS,
`delay - Infinity` is `-Infinity`, never positive). -/
def exceedsLimit (limit : Option ℚ) (delay : ℚ) : Bool :=
  match limit with
  | some l => decide (delay - l > 0)
  | none => false

/-- The `delta = delay - idleTimeLimit` accumulated into `shift` when
positive (only read when `exceedsLimit` holds, so the `none` value is
irrelevant). -/
def limitExcess (limit : Option ℚ) (delay : ℚ) : ℚ :=
  match limit with
  | some l => delay - l
  | none => 0

/-- The body of the `map` in `prepareFrames`, threaded over the batched
frames: `prevT` is the previous frame's *original* time, `shift` the
accumulated compression, `effSA` the running `effectiveStartAt`.
Returns the adjusted frames and the final `effectiveStartAt`. -/
def compressGo (limit : Option ℚ) (startAt : ℚ) :
    ℚ → ℚ → ℚ → List Frame → List Frame × ℚ
  | _, _, effSA, [] => ([], effSA)
  | prevT, shift, effSA, e :: rest =>
    let delay := e.1 - prevT
    let shift2 := if exceedsLimit limit delay then shift + limitExcess limit delay else shift
    let effSA2 :=
      if exceedsLimit limit delay && decide (e.1 < startAt) then
        effSA - limitExcess limit delay
      else effSA
    let r := compressGo limit startAt e.1 shift2 effSA2 rest
    ((e.1 - shift2, e.2) :: r.1, r.2)

/-- `prepareFrames(frames, logger, idleTimeLimit, startAt, minFrameTime)`:
batch, then compress idle gaps, returning the adjusted timeline and the
adjusted `effectiveStartAt` (initialised to `startAt`, `prevT = 0`,
`shift = 0`). -/
def prepareFrames (limit : Option ℚ) (startAt minFrameTime : ℚ)
    (frames : List Frame) : List Frame × ℚ :=
  compressGo limit startAt 0 0 startAt (batchFrames minFrameTime frames)

/-! ## Source fetching and initialization (`doFetch` / `init`) -/

/-- The errors `init` can raise (JS throws strings; the three thrown
messages are given symbolic names here, as in the spec). -/
inductive InitError where
  | fetchError
  | emptyRecording
  | missingSource
deriving DecidableEq, Repr

/-- The source descriptor `{url, data, fetchOpts}`.  A url source is
modelled together with its fetch outcome `(response.ok, text)`; the
`data` field's value/function/promise shapes all resolve to the final
string, so it is modelled as that string. -/
structure SrcDesc where
  url : Option (Bool × String)
  data : Option String
deriving DecidableEq

/-- `doFetch`: url first (failing with a fetch error when the response
is not ok), then inline data, else the url/data-missing error. -/
def doFetch (s : SrcDesc) : Except InitError String :=
  match s.url with
  | some (ok, text) => if ok then Except.ok text else Except.error InitError.fetchError
  | none =>
    match s.data with
    | some d => Except.ok d
    | none => Except.error InitError.missingSource

/-- What the external `parser` returns. -/
structure ParsedRecording where
  cols : ℕ
  rows : ℕ
  frames : List Frame
  idleTimeLimit : Option ℚ

/-- The `loop` option: `false`, `true`, or a repeat count. -/
inductive Loop where
  | off
  | forever
  | count (k : ℕ)
deriving DecidableEq, Repr

/-- Construction-time options `{idleTimeLimit, startAt, loop}`;
`idleTimeLimit = none` when the option is not supplied. -/
structure Config where
  idleTimeLimit : Option ℚ
  startAt : ℚ
  loop : Loop
deriving DecidableEq

/-- `idleTimeLimit = idleTimeLimit ?? recording.idleTimeLimit` (line 22):
the configured limit wins, else the recording's, else unbounded. -/
def resolveLimit (cfg : Config) (parsed : ParsedRecording) : Option ℚ :=
  cfg.idleTimeLimit.orElse (fun _ => parsed.idleTimeLimit)

/-- The closure state of `recording()`: the prepared timeline and the
`duration`/`loop` constants together with the mutable playback cursor
(`timeoutId` is `true` while a delayed callback is pending). -/
structure Engine where
  frames : List Frame
  duration : ℚ
  loop : Loop
  timeoutId : Bool
  nextFrameIndex : ℕ
  elapsedVirtualTime : ℚ
  startTime : ℚ
  pauseElapsedTime : Option ℚ
  effectiveStartAt : Option ℚ
  playCount : ℕ
deriving DecidableEq, Repr

/-- `init()` (lines 17-34): fetch, parse, resolve the idle limit,
prepare the frames, fail on an empty timeline, otherwise build the
initial engine state and return `{cols, rows, duration}`.  `startTime`
is uninitialised in the source until the first `resume`; it is set to 0
here. -/
def initE (s : SrcDesc) (parseFn : String → ParsedRecording) (minFrameTime : ℚ)
    (cfg : Config) : Except InitError (Engine × ℕ × ℕ × ℚ) :=
  match doFetch s with
  | Except.error err => Except.error err
  | Except.ok text =>
    let parsed := parseFn text
    let result := prepareFrames (resolveLimit cfg parsed) cfg.startAt minFrameTime parsed.frames
    if hfs : result.1 = [] then Except.error InitError.emptyRecording
    else
      let dur := (result.1.getLast hfs).1
      Except.ok
        ({ frames := result.1, duration := dur, loop := cfg.loop, timeoutId := false,
           nextFrameIndex := 0, elapsedVirtualTime := 0, startTime := 0,
           pauseElapsedTime := none, effectiveStartAt := some result.2,
           playCount := 0 }, parsed.cols, parsed.rows, dur)

/-! ## PlaybackEngine transport operations -/

/-- `pause()` (lines 116-124): a no-op unless a timer is pending;
otherwise cancel it and capture `pauseElapsedTime = now() - startTime`. -/
def pause (nowT : ℚ) (e : Engine) : Engine :=
  if e.timeoutId then
    { e with timeoutId := false, pauseElapsedTime := some (nowT - e.startTime) }
  else e

/-- `stop` is an alias of `pause` (line 219). -/
def stop (nowT : ℚ) (e : Engine) : Engine :=
  pause nowT e

/-- `loop === true || (typeof loop === 'number' && playCount < loop)`
(line 72). -/
def loopContinue (l : Loop) (playCount : ℕ) : Bool :=
  match l with
  | Loop.forever => true
  | Loop.count k => decide (playCount < k)
  | Loop.off => false

/-- The non-looping end of playback (lines 78-81): clear the timer, set
`pauseElapsedTime = duration * 1000`, clear `effectiveStartAt`, notify
`setState('stopped', {reason: 'ended'})`. -/
def stopEnded (e : Engine) : Engine × List Event :=
  ({ e with timeoutId := false,
            pauseElapsedTime := some (e.duration * 1000),
            effectiveStartAt := none },
   [Event.setState ("stopped") ("ended")])

/-- `scheduleNextFrame()` (lines 56-84).  When a frame is pending a
timer is armed (with delay `max 0 (t - (now - startTime))`, which does
not affect the modelled state beyond `timeoutId`).  At the end of the
timeline: bump `playCount`; on loop continuation reset the cursor,
re-anchor `startTime`, feed the terminal reset and re-enter, else stop.
The source re-enters by a recursive call; with a nonempty timeline that
call immediately arms a timer for frame 0, which is unrolled here (an
engine with an empty timeline never leaves `init`, which throws on it;
for that unreachable shape the source would re-enter again). -/
def scheduleNextFrame (nowT : ℚ) (e : Engine) : Engine × List Event :=
  match e.frames[e.nextFrameIndex]? with
  | some _ => ({ e with timeoutId := true }, [])
  | none =>
    let e1 := { e with playCount := e.playCount + 1 }
    if loopContinue e1.loop e1.playCount then
      let e2 := { e1 with nextFrameIndex := 0, startTime := nowT }
      match e2.frames[0]? with
      | some _ => ({ e2 with timeoutId := true }, [Event.feed resetSeq])
      | none => stopEnded e2
    else stopEnded e1

/-- `resume()` (lines 126-130): re-anchor `startTime = now() -
pauseElapsedTime`, clear it, schedule.  (`pauseElapsedTime` is always
set when the source calls `resume`; the `getD 0` covers the shape the
source never produces.) -/
def resume (nowT : ℚ) (e : Engine) : Engine × List Event :=
  scheduleNextFrame nowT
    { e with startTime := nowT - e.pauseElapsedTime.getD 0, pauseElapsedTime := none }

/-- The do-while body of `runFrame()` (lines 90-95): feed the due frame,
then keep feeding while the following frame's time has already been
overtaken by wall time.  Returns the payloads fed and the final
`elapsedVirtualTime` (`now()` is sampled once per callback here; the
source re-reads a monotone clock between iterations). -/
def runFrameGo (nowT sT : ℚ) : Frame → List Frame → List String × ℚ
  | f, [] => ([f.2], f.1 * 1000)
  | f, g :: rest =>
    if nowT - sT > g.1 * 1000 then
      let r := runFrameGo nowT sT g rest
      (f.2 :: r.1, r.2)
    else ([f.2], f.1 * 1000)

/-- A pending timer firing: `runFrame()` (lines 86-98) followed by its
tail call to `scheduleNextFrame()`.  The source only arms a timer when
a frame is pending, so the `none` branch is unreachable. -/
def fire (nowT : ℚ) (e : Engine) : Engine × List Event :=
  match e.frames[e.nextFrameIndex]? with
  | none => (e, [])
  | some f =>
    let r := runFrameGo nowT e.startTime f (e.frames.drop (e.nextFrameIndex + 1))
    let e1 := { e with nextFrameIndex := e.nextFrameIndex + r.1.length,
                       elapsedVirtualTime := r.2 }
    let s := scheduleNextFrame nowT e1
    (s.1, r.1.map Event.feed ++ s.2)

/-- The `where` argument of `seek` (line 132), as the closed variant the
spec prescribes for the string tags `<<`, `>>`, `<<<`, `>>>`, `"N%"`. -/
inductive SeekWhere where
  | abs (t : ℚ)
  | back5
  | fwd5
  | backTenth
  | fwdTenth
  | percent (p : ℚ)
deriving DecidableEq, Repr

/-- Resolution of a symbolic `where` to absolute seconds
(lines 136-150). -/
def resolveWhere (w : SeekWhere) (currentTime dur : ℚ) : ℚ :=
  match w with
  | SeekWhere.abs t => t
  | SeekWhere.back5 => currentTime - 5
  | SeekWhere.fwd5 => currentTime + 5
  | SeekWhere.backTenth => currentTime - (1 / 10) * dur
  | SeekWhere.fwdTenth => currentTime + (1 / 10) * dur
  | SeekWhere.percent p => (p / 100) * dur

/-- `targetTime = Math.min(Math.max(where, 0), duration) * 1000`
(line 152), with `where` resolved against `(pauseElapsedTime ?? 0) /
1000` as read after the initial `pause()`. -/
def seekTarget (nowT : ℚ) (w : SeekWhere) (e : Engine) : ℚ :=
  let e1 := pause nowT e
  min (max (resolveWhere w (e1.pauseElapsedTime.getD 0 / 1000) e1.duration) 0) e1.duration
    * 1000

/-- The frames fed by the forward scan of `seek` (lines 160-166): all
frames from the cursor onward whose adjusted time (ms) is strictly below
the target. -/
def seekScan (target : ℚ) (fs : List Frame) : List Frame :=
  fs.takeWhile (fun f => decide (f.1 * 1000 < target))

/-- `elapsedVirtualTime` after feeding `fed` (each feed overwrote it with
that frame's time): the last fed frame's time, or the previous value if
nothing was fed. -/
def lastTimeOr (dflt : ℚ) (fed : List Frame) : ℚ :=
  match fed.getLast? with
  | some f => f.1 * 1000
  | none => dflt

/-- `seek(where)` (lines 132-176): remember whether a timer was pending,
pause, resolve and clamp the target; on a backward target feed the
terminal reset and zero the cursor; scan-feed every remaining frame
strictly before the target; record `pauseElapsedTime = targetTime`,
consume `effectiveStartAt`; resume when previously playing. -/
def seek (nowT : ℚ) (w : SeekWhere) (e : Engine) : Engine × List Event :=
  let isPlaying := e.timeoutId
  let e1 := pause nowT e
  let target := seekTarget nowT w e
  let e2 :=
    if target < e1.elapsedVirtualTime then
      { e1 with nextFrameIndex := 0, elapsedVirtualTime := 0 }
    else e1
  let evs2 : List Event :=
    if target < e1.elapsedVirtualTime then [Event.feed resetSeq] else []
  let fed := seekScan target (e2.frames.drop e2.nextFrameIndex)
  let e3 := { e2 with
    nextFrameIndex := e2.nextFrameIndex + fed.length,
    elapsedVirtualTime := lastTimeOr e2.elapsedVirtualTime fed,
    pauseElapsedTime := some target,
    effectiveStartAt := none }
  if isPlaying then
    let r := resume nowT e3
    (r.1, evs2 ++ fed.map (fun f => Event.feed f.2) ++ r.2)
  else (e3, evs2 ++ fed.map (fun f => Event.feed f.2))

/-- `play()` (lines 100-114): no-op while a timer is pending; when the
cursor is past the end, re-arm `effectiveStartAt = 0`; consume a pending
`effectiveStartAt` by seeking to it; resume. -/
def play (nowT : ℚ) (e : Engine) : Engine × List Event :=
  if e.timeoutId then (e, [])
  else
    let e1 :=
      match e.frames[e.nextFrameIndex]? with
      | none => { e with effectiveStartAt := some 0 }
      | some _ => e
    let r1 :=
      match e1.effectiveStartAt with
      | some t => seek nowT (SeekWhere.abs t) e1
      | none => (e1, [])
    let r2 := resume nowT r1.1
    (r2.1, r1.2 ++ r2.2)

/-- `step()` (lines 178-189): feed the next pending frame (if any),
record its time as both `elapsedVirtualTime` and `pauseElapsedTime`,
advance the cursor; always consume `effectiveStartAt`. -/
def step (e : Engine) : Engine × List Event :=
  match e.frames[e.nextFrameIndex]? with
  | some f =>
    ({ e with elapsedVirtualTime := f.1 * 1000,
              pauseElapsedTime := some (f.1 * 1000),
              nextFrameIndex := e.nextFrameIndex + 1,
              effectiveStartAt := none }, [Event.feed f.2])
  | none => ({ e with effectiveStartAt := none }, [])

/-- `getPoster(time)` (lines 191-203): the payloads of the frames
strictly before `time`, read with a private cursor from index 0. -/
def getPoster (e : Engine) (time : ℚ) : List String :=
  (e.frames.takeWhile (fun f => decide (f.1 * 1000 < time * 1000))).map Prod.snd

/-- `getCurrentTime()` (lines 205-211). -/
def getCurrentTime (nowT : ℚ) (e : Engine) : ℚ :=
  if e.timeoutId then (nowT - e.startTime) / 1000
  else e.pauseElapsedTime.getD 0 / 1000

/-! ## Derived runs used to state the claims -/

/-- The payloads among a list of collaborator calls. -/
def feedsOf (evs : List Event) : List String :=
  evs.filterMap (fun ev =>
    match ev with
    | Event.feed s => some s
    | Event.setState _ _ => none)

/-- `n` successive `step()` calls, collecting the collaborator calls. -/
def stepDrain : ℕ → Engine → List Event
  | 0, _ => []
  | n + 1, e => (step e).2 ++ stepDrain n (step e).1

/-- Replaying the entire timeline from index 0 by repeated `step()`:
one `step` per frame consumes them all (further steps would feed
nothing). -/
def stepReplay (e : Engine) : List Event :=
  stepDrain e.frames.length { e with nextFrameIndex := 0 }

/-- Successive timer firings at the given `now()` readings. -/
def fireSeq : List ℚ → Engine → Engine × List Event
  | [], e => (e, [])
  | t :: ts, e =>
    let r1 := fire t e
    let r2 := fireSeq ts r1.1
    (r2.1, r1.2 ++ r2.2)

/-- `now()` readings spaced `durMs + 1` apart starting after `anchor`:
each reading overshoots the whole timeline, so each firing replays every
frame. -/
def clockSeq (durMs : ℚ) : ℕ → ℚ → List ℚ
  | 0, _ => []
  | r + 1, anchor => (anchor + (durMs + 1)) :: clockSeq durMs r (anchor + (durMs + 1))

/-- The collaborator calls of `r` remaining full replays under a
number-typed `loop`: each non-final replay feeds every payload and then
the terminal reset of the loop restart; the final one feeds every
payload and then signals `stopped/ended`. -/
def replayEvents (fs : List Frame) : ℕ → List Event
  | 0 => []
  | 1 => fs.map (fun f => Event.feed f.2) ++ [Event.setState ("stopped") ("ended")]
  | r + 2 =>
    fs.map (fun f => Event.feed f.2) ++ [Event.feed resetSeq]
      ++ replayEvents fs (r + 1)

/-- The collaborator calls of `j` completed (and continued) replays:
payloads then loop-restart reset, `j` times. -/
def replaysSoFar (fs : List Frame) (j : ℕ) : List Event :=
  (List.replicate j (fs.map (fun f => Event.feed f.2) ++ [Event.feed resetSeq])).flatten

/-- The engine state at the start of a replay round while playing under
`loop = count k`: cursor at 0, timer armed, wall clock anchored at
`anchor`, `c` replays completed. -/
def playingAt (fs : List Frame) (k : ℕ) (dur anchor evt : ℚ) (c : ℕ) : Engine :=
  { frames := fs, duration := dur, loop := Loop.count k, timeoutId := true,
    nextFrameIndex := 0, elapsedVirtualTime := evt, startTime := anchor,
    pauseElapsedTime := none, effectiveStartAt := none, playCount := c }

/-- The engine state after the `k`-th replay ended playback. -/
def stoppedAt (fs : List Frame) (k : ℕ) (dur anchor evt : ℚ) : Engine :=
  { frames := fs, duration := dur, loop := Loop.count k, timeoutId := false,
    nextFrameIndex := fs.length, elapsedVirtualTime := evt, startTime := anchor,
    pauseElapsedTime := some (dur * 1000), effectiveStartAt := none, playCount := k }

/-- The engine state `init` hands back for timeline `fs` (duration
`dur`, pending start offset `sa`, loop mode `l`). -/
def freshEngine (fs : List Frame) (dur sa : ℚ) (l : Loop) : Engine :=
  { frames := fs, duration := dur, loop := l, timeoutId := false,
    nextFrameIndex := 0, elapsedVirtualTime := 0, startTime := 0,
    pauseElapsedTime := none, effectiveStartAt := some sa, playCount := 0 }

/-- The state invariants `init` establishes and every transport
operation preserves, used as the "after a successful init" hypothesis:
a nonempty timeline in non-decreasing adjusted-time order starting at a
non-negative time, `duration` equal to the last adjusted time, and a
pending timer only while a frame remains. -/
structure WellFormed (e : Engine) : Prop where
  nonempty : e.frames ≠ []
  sorted : e.frames.Pairwise (fun a b => a.1 ≤ b.1)
  durLast : ∀ f, e.frames.getLast? = some f → e.duration = f.1
  headNonneg : ∀ f, e.frames.head? = some f → 0 ≤ f.1
  timerFrame : e.timeoutId = true → e.nextFrameIndex < e.frames.length

/-! ## Concrete fixtures for scenario and counterexample claims -/

/-- The C1 scenario input: timestamps `[0, 5, 20, 21]`. -/
def c1Frames : List Frame := [(0, "a"), (5, "b"), (20, "c"), (21, "d")]

/-- Input with consecutive frame deltas `1/100 < 1/60` in a chain. -/
def c6Frames : List Frame := [(0, "a"), (1/100, "b"), (1/50, "c")]

/-- A parser returning a fixed single-frame recording. -/
def oneFrameParse : String → ParsedRecording :=
  fun _ => { cols := 80, rows := 24, frames := [(0, "a")], idleTimeLimit := none }

/-- An inline-data source. -/
def inlineSrc : SrcDesc := { url := none, data := some ("x") }

/-- A url-less, data-less source. -/
def emptySrc : SrcDesc := { url := none, data := none }

/-- Default construction options. -/
def defaultCfg : Config := { idleTimeLimit := none, startAt := 0, loop := Loop.off }

/-- The engine produced by `initE inlineSrc oneFrameParse (1/60) defaultCfg`. -/
def oneFrameEngine : Engine := freshEngine [(0, "a")] 0 0 Loop.off

/-- A playing engine (timer pending) on a one-frame timeline, cursor at
the pending frame. -/
def c3Engine : Engine :=
  { frames := [(0, "a")], duration := 0, loop := Loop.off, timeoutId := true,
    nextFrameIndex := 0, elapsedVirtualTime := 0, startTime := 0,
    pauseElapsedTime := none, effectiveStartAt := none, playCount := 0 }

/-- A paused two-frame engine used to instantiate universally quantified
claims. -/
def twoFrameEngine : Engine := freshEngine [(0, "a"), (2, "b")] 2 0 Loop.off

/-- The concatenation of all payloads of a frame list. -/
def concatPayloads (fs : List Frame) : String :=
  fs.foldr (fun f acc => f.2 ++ acc) ""

/-- A time delta respects the idle limit (`none` = unbounded, no
constraint). -/
def timeBound (limit : Option ℚ) (d : ℚ) : Prop :=
  match limit with
  | some l => d ≤ l
  | none => True

/-! # Theorems -/

/-! ## C1: the idle-compression scenario `[0, 5, 20, 21]`, limit 2 -/

/-- **C1** (counterexample): on timestamps `[0, 5, 20, 21]` with
`idleTimeLimit = 2` the compression yields adjusted times
`[0, 2, 4, 5]`, not the claimed `[0, 2, 3, 4]` (the cumulative shift 16
puts the third frame at `20 - 16 = 4` and the fourth at `21 - 16 = 5`). -/
theorem c1_counterexample :
    (prepareFrames (some 2) 0 (1/60) c1Frames).1.map Prod.fst = [0, 2, 4, 5] ∧
    (prepareFrames (some 2) 0 (1/60) c1Frames).1.map Prod.fst ≠ [0, 2, 3, 4] := by
  constructor <;>
    norm_num [prepareFrames, batchFrames, batchGo, compressGo, exceedsLimit, limitExcess,
      c1Frames]

/-- **C1** (amended): for the input frame sequence with timestamps
`[0, 5, 20, 21]` (gaps at least `minFrameTime`, so batching merges
nothing) and `idleTimeLimit = 2`, the timeline compression of
`prepareFrames` produces adjusted frame times `[0, 2, 4, 5]`. -/
theorem c1_amended :
    (prepareFrames (some 2) 0 (1/60) c1Frames).1.map Prod.fst = [0, 2, 4, 5] := by
  norm_num [prepareFrames, batchFrames, batchGo, compressGo, exceedsLimit, limitExcess,
    c1Frames]

/-! ## C3: `step()` and the pending callback -/

/-- **C3** (counterexample): an engine with a pending delayed callback
(`timeoutId` set) and a frame remaining, on which `step()` advances
`nextFrameIndex` while leaving the callback armed — `step` performs no
cancellation. -/
theorem c3_counterexample :
    c3Engine.timeoutId = true ∧
    c3Engine.frames[c3Engine.nextFrameIndex]? = some (0, "a") ∧
    (step c3Engine).1.timeoutId = true ∧
    (step c3Engine).1.nextFrameIndex = 1 := by
  refine ⟨rfl, rfl, ?_, ?_⟩ <;> simp [step, c3Engine]

/-- **C3** (amended): `step()` never cancels a pending callback — it
leaves `timeoutId` untouched while mutating `nextFrameIndex` and
`elapsedVirtualTime`; of the transport operations it is `pause` (and
`seek`, which starts with `pause`) that cancels the pending callback. -/
theorem c3_amended (e : Engine) (f : Frame)
    (hf : e.frames[e.nextFrameIndex]? = some f) (hp : e.timeoutId = true) :
    (step e).1.timeoutId = true ∧
    (step e).1.nextFrameIndex = e.nextFrameIndex + 1 ∧
    (step e).1.elapsedVirtualTime = f.1 * 1000 ∧
    (∀ nowT, (pause nowT e).timeoutId = false) := by
  refine ⟨?_, ?_, ?_, ?_⟩ <;> simp [step, hf, pause, hp]

/-- Witness for `c3_amended` at the concrete playing engine. -/
theorem c3_amended_witness :
    (step c3Engine).1.timeoutId = true ∧ (pause 0 c3Engine).timeoutId = false := by
  have h := c3_amended c3Engine (0, "a") rfl rfl
  exact ⟨h.1, h.2.2.2 0⟩

/-! ## C2 (counterexample part): poster at `duration` misses the last
frame -/

/-- **C2** (counterexample): a successful `init` on a recording with the
single frame `(0, "a")` yields a timeline whose `getPoster(duration)`
is empty (strict comparison against `duration = 0`), while replaying by
repeated `step()` feeds `"a"`. -/
theorem c2_counterexample :
    initE inlineSrc oneFrameParse (1/60) defaultCfg
        = Except.ok (oneFrameEngine, 80, 24, 0) ∧
    getPoster oneFrameEngine oneFrameEngine.duration = [] ∧
    feedsOf (stepReplay oneFrameEngine) = ["a"] ∧
    ([] : List String) ≠ ["a"] := by
  refine ⟨?_, ?_, ?_, by decide⟩
  · norm_num [initE, doFetch, inlineSrc, oneFrameParse, defaultCfg, resolveLimit,
      prepareFrames, batchFrames, batchGo, compressGo, exceedsLimit, limitExcess,
      oneFrameEngine, freshEngine]
  · norm_num [getPoster, oneFrameEngine, freshEngine, List.takeWhile]
  · norm_num [feedsOf, stepReplay, stepDrain, step, oneFrameEngine, freshEngine,
      List.filterMap]

/-! ## C6: batching counterexample -/

/-- **C6** (counterexample): input frames at times `0`, `1/100`, `1/50`
with `minFrameTime = 1/60`.  The second and third input frames are
consecutive with delta `1/100 < 1/60`, yet the batcher emits them in
two different output frames (`"ab"` and `"c"`): merging is measured
against the kept time of the buffered merged frame, not against the
immediately preceding input frame. -/
theorem c6_counterexample :
    (1/50 - 1/100 : ℚ) < 1/60 ∧
    batchFrames (1/60) c6Frames = [(0, "ab"), (1/50, "c")] ∧
    'c' ∉ ("ab").data ∧
    'b' ∉ ("c").data := by
  refine ⟨by norm_num, ?_, by decide, by decide⟩
  norm_num [batchFrames, batchGo, c6Frames]
  rfl

/-! ## C10: unbounded idle limit leaves the compression inert -/

/-- With an unbounded limit the compression pass subtracts the initial
`shift` from every time and never touches `effectiveStartAt`. -/
theorem compressGo_none (sa : ℚ) (fs : List Frame) :
    ∀ (prevT shift effSA : ℚ),
      compressGo none sa prevT shift effSA fs
        = (fs.map (fun f => (f.1 - shift, f.2)), effSA) := by
  induction fs with
  | nil => intro prevT shift effSA; rfl
  | cons e rest ih =>
    intro prevT shift effSA
    simp [compressGo, exceedsLimit, ih]

/-- **C10**: with `idleTimeLimit` unbounded (`none`, the `Infinity`
default), `prepareFrames` is the identity on the batched frame times
(`shift` stays 0) and returns `effectiveStartAt = startAt`; and when
neither the configuration nor the recording supplies a limit, the
resolved limit is the unbounded one. -/
theorem c10_unbounded_identity (startAt minFrameTime : ℚ) (fs : List Frame)
    (cfg : Config) (parsed : ParsedRecording)
    (hcfg : cfg.idleTimeLimit = none) (hrec : parsed.idleTimeLimit = none) :
    prepareFrames none startAt minFrameTime fs = (batchFrames minFrameTime fs, startAt) ∧
    resolveLimit cfg parsed = none := by
  constructor
  · simp [prepareFrames, compressGo_none]
  · simp [resolveLimit, hcfg, hrec, Option.orElse]

/-- Witness for `c10_unbounded_identity` on the C1 frame list. -/
theorem c10_unbounded_identity_witness :
    prepareFrames none 0 (1/60) c1Frames = (batchFrames (1/60) c1Frames, 0) ∧
    resolveLimit defaultCfg (oneFrameParse ("x")) = none := by
  exact c10_unbounded_identity 0 (1/60) c1Frames defaultCfg (oneFrameParse ("x")) rfl rfl

/-! ## C6 (amended): anchor-relative batching, payload conservation -/

/-- Batching conserves the payload concatenation. -/
theorem batchGo_payloads (m : ℚ) (fs : List Frame) :
    ∀ prev : Frame, concatPayloads (batchGo m prev fs) = prev.2 ++ concatPayloads fs := by
  induction fs with
  | nil => intro prev; simp [batchGo, concatPayloads]
  | cons f rest ih =>
    intro prev
    by_cases h : f.1 - prev.1 < m
    · rw [show batchGo m prev (f :: rest) = batchGo m (prev.1, prev.2 ++ f.2) rest from by
        simp [batchGo, h]]
      rw [ih]
      simp only [concatPayloads, List.foldr_cons]
      exact String.append_assoc prev.2 f.2 _
    · rw [show batchGo m prev (f :: rest) = prev :: batchGo m f rest from by
        simp [batchGo, h]]
      simp only [concatPayloads, List.foldr_cons] at ih ⊢
      rw [ih f]

/-- The batched output's times are a subsequence of the input times:
each output frame keeps the time of the earliest frame of its merged
group. -/
theorem batchGo_times_sublist (m : ℚ) (fs : List Frame) :
    ∀ prev : Frame,
      ((batchGo m prev fs).map Prod.fst).Sublist (prev.1 :: fs.map Prod.fst) := by
  induction fs with
  | nil => intro prev; simp [batchGo]
  | cons f rest ih =>
    intro prev
    by_cases h : f.1 - prev.1 < m
    · simpa [batchGo, if_pos h] using
        ((ih (prev.1, prev.2 ++ f.2)).trans
          ((List.sublist_cons_self f.1 (rest.map Prod.fst)).cons_cons prev.1))
    · simpa [batchGo, if_neg h] using (ih f).cons_cons prev.1

/-- **C6** (amended): for every ordered input frame sequence and
`minFrameTime`, the batcher merges an input frame into the currently
buffered output frame precisely when its delta to that frame's kept
(earliest-in-group) time is below `minFrameTime` — so every output
frame keeps the time of the earliest frame of its group (output times
are a subsequence of input times, witnessed on the spec scenario), and
the concatenation of all output payloads equals the concatenation of
all input payloads in order. -/
theorem c6_amended (m : ℚ) (fs : List Frame) :
    concatPayloads (batchFrames m fs) = concatPayloads fs ∧
    ((batchFrames m fs).map Prod.fst).Sublist (fs.map Prod.fst) ∧
    batchFrames (1/60) [(0, "a"), (1/200, "b"), (1, "c")] = [(0, "ab"), (1, "c")] := by
  refine ⟨?_, ?_, ?_⟩
  · cases fs with
    | nil => rfl
    | cons f rest => simpa [batchFrames, concatPayloads] using batchGo_payloads m rest f
  · cases fs with
    | nil => simp [batchFrames]
    | cons f rest => simpa [batchFrames] using batchGo_times_sublist m rest f
  · norm_num [batchFrames, batchGo]
    rfl

/-! ## C5: the adjusted timeline is sorted with deltas within the idle
limit -/

/-- The first batched frame keeps the buffered frame's time. -/
theorem batchGo_head_time (m : ℚ) (fs : List Frame) :
    ∀ prev : Frame, ∃ p tl, batchGo m prev fs = (prev.1, p) :: tl := by
  induction fs with
  | nil => intro prev; exact ⟨prev.2, [], by simp [batchGo]⟩
  | cons f rest ih =>
    intro prev
    by_cases h : f.1 - prev.1 < m
    · obtain ⟨p, tl, hp⟩ := ih (prev.1, prev.2 ++ f.2)
      exact ⟨p, tl, by simpa [batchGo, h] using hp⟩
    · exact ⟨prev.2, batchGo m f rest, by simp [batchGo, h]⟩

/-- Batching a non-decreasing stream yields a non-decreasing stream. -/
theorem batchGo_chain (m : ℚ) (fs : List Frame) :
    ∀ prev : Frame, List.Chain' (fun a b : Frame => a.1 ≤ b.1) (prev :: fs) →
      List.Chain' (fun a b : Frame => a.1 ≤ b.1) (batchGo m prev fs) := by
  induction fs with
  | nil => intro prev _; simp [batchGo]
  | cons f rest ih =>
    intro prev hc
    obtain ⟨hpf, hfr⟩ := List.chain'_cons.mp hc
    by_cases h : f.1 - prev.1 < m
    · rw [show batchGo m prev (f :: rest) = batchGo m (prev.1, prev.2 ++ f.2) rest from by
        simp [batchGo, h]]
      apply ih
      obtain ⟨hfh, hrest⟩ := List.chain'_cons'.mp hfr
      refine List.chain'_cons'.mpr ⟨?_, hrest⟩
      intro b hb
      exact le_trans hpf (hfh b hb)
    · rw [show batchGo m prev (f :: rest) = prev :: batchGo m f rest from by
        simp [batchGo, h]]
      refine List.chain'_cons'.mpr ⟨?_, ih f hfr⟩
      intro b hb
      obtain ⟨p, tl, hp⟩ := batchGo_head_time m rest f
      rw [hp] at hb
      simp only [List.head?_cons, Option.mem_def, Option.some.injEq] at hb
      rw [← hb]
      exact hpf

/-- The shift accumulated on one frame keeps the adjusted delta
non-negative and within the limit. -/
theorem shiftStep_bound (limit : Option ℚ) (hL : ∀ l, limit = some l → 0 ≤ l)
    (d : ℚ) (hd : 0 ≤ d) (shift : ℚ) :
    0 ≤ d - ((if exceedsLimit limit d then shift + limitExcess limit d else shift) - shift) ∧
    timeBound limit
      (d - ((if exceedsLimit limit d then shift + limitExcess limit d else shift) - shift)) := by
  cases limit with
  | none => simpa [exceedsLimit, timeBound] using hd
  | some l =>
    have hl := hL l rfl
    by_cases h : d - l > 0
    · simp only [exceedsLimit, limitExcess, timeBound, decide_eq_true_eq, if_pos h]
      constructor <;> linarith
    · simp only [exceedsLimit, limitExcess, timeBound, decide_eq_true_eq, if_neg h]
      constructor <;> linarith

/-- The head of the compressed output. -/
theorem compressGo_head (limit : Option ℚ) (sa prevT shift effSA : ℚ) (e : Frame)
    (rest : List Frame) :
    (compressGo limit sa prevT shift effSA (e :: rest)).1
      = (e.1 - (if exceedsLimit limit (e.1 - prevT) then
                  shift + limitExcess limit (e.1 - prevT) else shift), e.2)
        :: (compressGo limit sa e.1
              (if exceedsLimit limit (e.1 - prevT) then
                shift + limitExcess limit (e.1 - prevT) else shift)
              (if exceedsLimit limit (e.1 - prevT) && decide (e.1 < sa) then
                effSA - limitExcess limit (e.1 - prevT) else effSA) rest).1 := rfl

/-- Compressing a non-decreasing stream: every consecutive adjusted
delta is non-negative and within the idle limit. -/
theorem compressGo_chain (limit : Option ℚ) (hL : ∀ l, limit = some l → 0 ≤ l)
    (sa : ℚ) (fs : List Frame) :
    ∀ prevT shift effSA, List.Chain' (fun a b : Frame => a.1 ≤ b.1) fs →
      List.Chain' (fun a b : Frame => 0 ≤ b.1 - a.1 ∧ timeBound limit (b.1 - a.1))
        ((compressGo limit sa prevT shift effSA fs).1) := by
  induction fs with
  | nil => intro _ _ _ _; simp [compressGo]
  | cons e rest ih =>
    intro prevT shift effSA hc
    cases rest with
    | nil => simp [compressGo]
    | cons e2 rest2 =>
      obtain ⟨h12, hc2⟩ := List.chain'_cons.mp hc
      rw [compressGo_head]
      refine List.chain'_cons'.mpr ⟨?_, ih e.1 _ _ hc2⟩
      intro b hb
      rw [compressGo_head] at hb
      simp only [List.head?_cons, Option.mem_def, Option.some.injEq] at hb
      subst hb
      have := shiftStep_bound limit hL (e2.1 - e.1) (by linarith)
        (if exceedsLimit limit (e.1 - prevT) then
          shift + limitExcess limit (e.1 - prevT) else shift)
      constructor
      · have h1 := this.1
        dsimp only
        linarith [h1]
      · have h2 := this.2
        have harith :
            e2.1 - (if exceedsLimit limit (e2.1 - e.1) then
                (if exceedsLimit limit (e.1 - prevT) then
                  shift + limitExcess limit (e.1 - prevT) else shift)
                  + limitExcess limit (e2.1 - e.1)
              else (if exceedsLimit limit (e.1 - prevT) then
                  shift + limitExcess limit (e.1 - prevT) else shift))
              - (e.1 - (if exceedsLimit limit (e.1 - prevT) then
                  shift + limitExcess limit (e.1 - prevT) else shift))
            = (e2.1 - e.1)
              - ((if exceedsLimit limit (e2.1 - e.1) then
                  (if exceedsLimit limit (e.1 - prevT) then
                    shift + limitExcess limit (e.1 - prevT) else shift)
                    + limitExcess limit (e2.1 - e.1)
                else (if exceedsLimit limit (e.1 - prevT) then
                    shift + limitExcess limit (e.1 - prevT) else shift))
                - (if exceedsLimit limit (e.1 - prevT) then
                    shift + limitExcess limit (e.1 - prevT) else shift)) := by
          ring
        rw [harith]
        exact h2

/-- **C5**: for every input frame sequence with non-decreasing
timestamps and every non-negative (or unbounded) `idleTimeLimit`, the
timeline produced by `prepareFrames` has every consecutive pair of
adjusted frames at a non-negative delta within the idle limit; and the
`duration` set by `init` equals the last adjusted frame's time. -/
theorem c5_compression_bound :
    (∀ (limit : Option ℚ), (∀ l, limit = some l → 0 ≤ l) →
      ∀ (startAt minFrameTime : ℚ) (fs : List Frame),
        List.Chain' (fun a b : Frame => a.1 ≤ b.1) fs →
        List.Chain' (fun a b : Frame => 0 ≤ b.1 - a.1 ∧ timeBound limit (b.1 - a.1))
          ((prepareFrames limit startAt minFrameTime fs).1)) ∧
    (∀ (s : SrcDesc) (parseFn : String → ParsedRecording) (mft : ℚ) (cfg : Config) r,
      initE s parseFn mft cfg = Except.ok r →
      ∀ f, r.1.frames.getLast? = some f → r.1.duration = f.1) := by
  constructor
  · intro limit hL startAt minFrameTime fs hc
    unfold prepareFrames
    apply compressGo_chain limit hL
    cases fs with
    | nil => simp [batchFrames]
    | cons f rest =>
      exact batchGo_chain minFrameTime rest f hc
  · intro s parseFn mft cfg r hr f hf
    unfold initE at hr
    cases hfetch : doFetch s with
    | error err => rw [hfetch] at hr; cases hr
    | ok text =>
      rw [hfetch] at hr
      dsimp only at hr
      split at hr
      · cases hr
      · cases hr
        simp only at hf ⊢
        rw [List.getLast?_eq_getLast] at hf
        rw [← Option.some.inj hf]

/-- Witness for `c5_compression_bound`: the C1 scenario timeline under
limit 2, and the one-frame init. -/
theorem c5_compression_bound_witness :
    List.Chain' (fun a b : Frame => 0 ≤ b.1 - a.1 ∧ timeBound (some 2) (b.1 - a.1))
      ((prepareFrames (some 2) 0 (1/60) c1Frames).1) ∧
    oneFrameEngine.duration = (0 : ℚ) := by
  constructor
  · exact c5_compression_bound.1 (some 2) (fun l hl => by cases hl; norm_num) 0 (1/60)
      c1Frames (by norm_num [c1Frames])
  · exact c5_compression_bound.2 inlineSrc oneFrameParse (1/60) defaultCfg
      (oneFrameEngine, 80, 24, 0)
      (by norm_num [initE, doFetch, inlineSrc, oneFrameParse, defaultCfg, resolveLimit,
        prepareFrames, batchFrames, batchGo, compressGo, exceedsLimit, limitExcess,
        oneFrameEngine, freshEngine])
      (0, "a") rfl

/-! ## C2 (amended part): poster strictly past the end equals the step
replay -/

/-- Draining a suffix of the timeline by `step()` feeds exactly its
payloads in order. -/
theorem stepDrain_suffix : ∀ (fs : List Frame) (e : Engine),
    e.frames.drop e.nextFrameIndex = fs →
    stepDrain fs.length e = fs.map (fun f => Event.feed f.2) := by
  intro fs
  induction fs with
  | nil => intro e _; rfl
  | cons f rest ih =>
    intro e h
    have hget : e.frames[e.nextFrameIndex]? = some f := by
      have h0 := congrArg (fun l => l[0]?) h
      simpa [List.getElem?_drop] using h0
    have hstep : step e =
        ({ e with elapsedVirtualTime := f.1 * 1000,
                  pauseElapsedTime := some (f.1 * 1000),
                  nextFrameIndex := e.nextFrameIndex + 1,
                  effectiveStartAt := none }, [Event.feed f.2]) := by
      simp [step, hget]
    show stepDrain (rest.length + 1) e = _
    rw [stepDrain, hstep]
    simp only [List.map_cons, List.singleton_append]
    rw [ih]
    show List.drop (e.nextFrameIndex + 1) e.frames = rest
    rw [← List.tail_drop, h, List.tail_cons]

/-- Extracting the payloads of pure feed events. -/
theorem feedsOf_feeds (fs : List Frame) :
    feedsOf (fs.map (fun f => Event.feed f.2)) = fs.map Prod.snd := by
  induction fs with
  | nil => rfl
  | cons f rest ih => simpa [feedsOf, List.filterMap_cons] using ih

/-- `takeWhile` keeps the whole list when the predicate holds
everywhere. -/
theorem takeWhile_of_all {α : Type} (p : α → Bool) :
    ∀ l : List α, (∀ a ∈ l, p a = true) → l.takeWhile p = l := by
  intro l
  induction l with
  | nil => intro _; rfl
  | cons a l ih =>
    intro h
    have ha := h a (List.mem_cons_self a l)
    simp [List.takeWhile_cons, ha, ih (fun b hb => h b (List.mem_cons_of_mem a hb))]

/-- In a non-decreasing frame list every time is at most the last. -/
theorem time_le_getLast : ∀ (fs : List Frame) (h : fs ≠ []),
    fs.Pairwise (fun a b : Frame => a.1 ≤ b.1) →
    ∀ f ∈ fs, f.1 ≤ (fs.getLast h).1 := by
  intro fs
  induction fs with
  | nil => intro h; cases h rfl
  | cons a l ih =>
    intro h hp f hf
    obtain ⟨ha, hl⟩ := List.pairwise_cons.mp hp
    cases l with
    | nil =>
      rw [List.mem_singleton] at hf
      subst hf
      simp [List.getLast]
    | cons b l2 =>
      rw [List.getLast_cons (List.cons_ne_nil b l2)]
      rcases List.mem_cons.mp hf with hfa | hfl
      · subst hfa
        exact le_trans (ha _ (List.getLast_mem (List.cons_ne_nil b l2)))
          (le_refl _)
      · exact ih (List.cons_ne_nil b l2) hl f hfl

/-- **C2 (amended)**: after a successful init (a well-formed engine),
`getPoster t` for every `t` strictly greater than `duration` returns
the same ordered payload sequence as replaying the entire timeline from
index 0 by repeated `step()`; at `t = duration` itself the poster's
strict comparison omits the frames sitting exactly at the final
timestamp (counterexample above). -/
theorem c2_amended (e : Engine) (hwf : WellFormed e) (t : ℚ) (ht : e.duration < t) :
    getPoster e t = feedsOf (stepReplay e) := by
  have hrep : stepReplay e = e.frames.map (fun f => Event.feed f.2) := by
    apply stepDrain_suffix
    simp
  rw [stepReplay] at hrep
  unfold stepReplay
  rw [hrep, feedsOf_feeds]
  unfold getPoster
  congr 1
  apply takeWhile_of_all
  intro f hf
  have hlast : e.frames.getLast? = some (e.frames.getLast hwf.nonempty) :=
    List.getLast?_eq_getLast _ hwf.nonempty
  have hdur : e.duration = (e.frames.getLast hwf.nonempty).1 := hwf.durLast _ hlast
  have h1 : f.1 ≤ e.duration := by
    rw [hdur]
    exact time_le_getLast e.frames hwf.nonempty hwf.sorted f hf
  simp only [decide_eq_true_eq]
  have : f.1 < t := lt_of_le_of_lt h1 ht
  linarith

/-- `twoFrameEngine` satisfies the post-init invariants. -/
theorem twoFrame_wf : WellFormed twoFrameEngine := by
  constructor
  · simp [twoFrameEngine, freshEngine]
  · norm_num [twoFrameEngine, freshEngine, List.pairwise_cons]
  · intro f hf
    simp only [twoFrameEngine, freshEngine] at hf ⊢
    rw [show ([(0, "a"), (2, "b")] : List Frame).getLast? = some (2, "b") from rfl] at hf
    rw [← Option.some.inj hf]
  · intro f hf
    simp only [twoFrameEngine, freshEngine] at hf ⊢
    rw [show ([(0, "a"), (2, "b")] : List Frame).head? = some (0, "a") from rfl] at hf
    rw [← Option.some.inj hf]
  · intro h
    simp [twoFrameEngine, freshEngine] at h

/-- Witness for `c2_amended` on the two-frame engine at `t = 3`. -/
theorem c2_amended_witness :
    getPoster twoFrameEngine 3 = feedsOf (stepReplay twoFrameEngine) :=
  c2_amended twoFrameEngine twoFrame_wf 3 (by norm_num [twoFrameEngine, freshEngine])

/-! ## C8: the init error conditions, and every later operation total -/

/-- **C8**: `init` fails with `MissingSource` exactly when the source
supplies neither a url nor inline data, and with `EmptyRecording`
exactly when the fetch succeeds but the prepared timeline is empty;
after init no operation raises (each is a total function here): `play`
while playing and `pause` while paused are identities, `step` with no
frame remaining feeds nothing and leaves the cursor untouched, the seek
target is clamped to `[0, duration]`, and `stop` is `pause`. -/
theorem c8_error_conditions :
    (∀ (s : SrcDesc) (parseFn : String → ParsedRecording) (mft : ℚ) (cfg : Config),
      initE s parseFn mft cfg = Except.error InitError.missingSource ↔
        s.url = none ∧ s.data = none) ∧
    (∀ (s : SrcDesc) (parseFn : String → ParsedRecording) (mft : ℚ) (cfg : Config),
      initE s parseFn mft cfg = Except.error InitError.emptyRecording ↔
        ∃ text, doFetch s = Except.ok text ∧
          (prepareFrames (resolveLimit cfg (parseFn text)) cfg.startAt mft
            (parseFn text).frames).1 = []) ∧
    (∀ (nowT : ℚ) (e : Engine), e.timeoutId = true → play nowT e = (e, [])) ∧
    (∀ (nowT : ℚ) (e : Engine), e.timeoutId = false → pause nowT e = e) ∧
    (∀ e : Engine, e.frames[e.nextFrameIndex]? = none →
      (step e).2 = [] ∧ (step e).1.nextFrameIndex = e.nextFrameIndex ∧
      (step e).1.elapsedVirtualTime = e.elapsedVirtualTime ∧
      (step e).1.pauseElapsedTime = e.pauseElapsedTime) ∧
    (∀ (nowT : ℚ) (w : SeekWhere) (e : Engine), 0 ≤ e.duration →
      0 ≤ seekTarget nowT w e ∧ seekTarget nowT w e ≤ e.duration * 1000) ∧
    stop = pause := by
  refine ⟨?_, ?_, ?_, ?_, ?_, ?_, rfl⟩
  · intro s parseFn mft cfg
    constructor
    · intro h
      unfold initE at h
      cases hfetch : doFetch s with
      | error err =>
        rw [hfetch] at h
        cases h
        unfold doFetch at hfetch
        cases hu : s.url with
        | some v =>
          rw [hu] at hfetch
          obtain ⟨ok, text⟩ := v
          by_cases hok : ok = true
          · simp [hok] at hfetch
          · simp [Bool.eq_false_iff.mpr hok] at hfetch
        | none =>
          rw [hu] at hfetch
          cases hd : s.data with
          | some d => rw [hd] at hfetch; cases hfetch
          | none => exact ⟨rfl, rfl⟩
      | ok text =>
        rw [hfetch] at h
        dsimp only at h
        split at h
        · cases h
        · cases h
    · rintro ⟨hu, hd⟩
      unfold initE doFetch
      rw [hu, hd]
  · intro s parseFn mft cfg
    constructor
    · intro h
      unfold initE at h
      cases hfetch : doFetch s with
      | error err =>
        rw [hfetch] at h
        cases h
        unfold doFetch at hfetch
        cases hu : s.url with
        | some v =>
          rw [hu] at hfetch
          obtain ⟨ok, text⟩ := v
          by_cases hok : ok = true
          · simp [hok] at hfetch
          · simp [Bool.eq_false_iff.mpr hok] at hfetch
        | none =>
          rw [hu] at hfetch
          cases hd : s.data with
          | some d => rw [hd] at hfetch; cases hfetch
          | none => rw [hd] at hfetch; cases hfetch
      | ok text =>
        rw [hfetch] at h
        dsimp only at h
        split at h
        · exact ⟨text, rfl, by assumption⟩
        · cases h
    · rintro ⟨text, hfetch, hempty⟩
      unfold initE
      rw [hfetch]
      dsimp only
      rw [dif_pos hempty]
  · intro nowT e h
    unfold play
    rw [h]
    simp
  · intro nowT e h
    unfold pause
    rw [h]
    simp
  · intro e h
    refine ⟨?_, ?_, ?_, ?_⟩ <;> simp [step, h]
  · intro nowT w e hd
    unfold seekTarget
    dsimp only
    have hdur : (pause nowT e).duration = e.duration := by
      unfold pause
      by_cases h : e.timeoutId <;> simp [h]
    rw [hdur]
    constructor
    · have h0 : (0 : ℚ) ≤
          min (max (resolveWhere w ((pause nowT e).pauseElapsedTime.getD 0 / 1000) e.duration) 0)
            e.duration :=
        le_min (le_max_right _ 0) hd
      nlinarith
    · have h1 :
          min (max (resolveWhere w ((pause nowT e).pauseElapsedTime.getD 0 / 1000) e.duration) 0)
            e.duration ≤ e.duration :=
        min_le_right _ _
      nlinarith

/-- Witness for `c8_error_conditions` at concrete sources and engines. -/
theorem c8_error_conditions_witness :
    initE emptySrc oneFrameParse (1/60) defaultCfg
        = Except.error InitError.missingSource ∧
    play 0 c3Engine = (c3Engine, []) ∧
    pause 0 twoFrameEngine = twoFrameEngine ∧
    0 ≤ seekTarget 0 (SeekWhere.abs 5) twoFrameEngine := by
  refine ⟨?_, ?_, ?_, ?_⟩
  · exact (c8_error_conditions.1 emptySrc oneFrameParse (1/60) defaultCfg).mpr ⟨rfl, rfl⟩
  · exact c8_error_conditions.2.2.1 0 c3Engine rfl
  · exact c8_error_conditions.2.2.2.1 0 twoFrameEngine rfl
  · exact (c8_error_conditions.2.2.2.2.2.1 0 (SeekWhere.abs 5) twoFrameEngine
      (by norm_num [twoFrameEngine, freshEngine])).1

/-! ## C4: the seek contract -/

/-- `pause` never changes the timeline, cursor index, virtual time,
duration or loop state, and always leaves the timer cancelled. -/
theorem pause_fields (nowT : ℚ) (e : Engine) :
    (pause nowT e).frames = e.frames ∧
    (pause nowT e).nextFrameIndex = e.nextFrameIndex ∧
    (pause nowT e).elapsedVirtualTime = e.elapsedVirtualTime ∧
    (pause nowT e).duration = e.duration ∧
    (pause nowT e).timeoutId = false ∧
    (pause nowT e).effectiveStartAt = e.effectiveStartAt ∧
    (pause nowT e).loop = e.loop ∧
    (pause nowT e).playCount = e.playCount ∧
    (pause nowT e).startTime = e.startTime := by
  unfold pause
  by_cases h : e.timeoutId <;> simp [h]

/-- `pause` on an engine with no pending timer is the identity. -/
theorem pause_of_paused (nowT : ℚ) (e : Engine) (h : e.timeoutId = false) :
    pause nowT e = e := by
  unfold pause
  rw [h]
  simp

/-- A well-formed engine has a non-negative duration. -/
theorem wf_dur_nonneg (e : Engine) (hwf : WellFormed e) : 0 ≤ e.duration := by
  obtain ⟨hd, tl, hht⟩ : ∃ hd tl, e.frames = hd :: tl := by
    cases hf : e.frames with
    | nil => exact absurd hf hwf.nonempty
    | cons a l => exact ⟨a, l, rfl⟩
  have hhead : e.frames.head? = some hd := by rw [hht]; rfl
  have h0 : (0 : ℚ) ≤ hd.1 := hwf.headNonneg hd hhead
  have hlast : e.duration = (e.frames.getLast hwf.nonempty).1 :=
    hwf.durLast _ (List.getLast?_eq_getLast _ hwf.nonempty)
  have hmem : hd ∈ e.frames := List.mem_of_mem_head? hhead
  have := time_le_getLast e.frames hwf.nonempty hwf.sorted hd hmem
  rw [hlast]
  linarith

/-- The clamp of the resolved seek target (shared by C4 and C8). -/
theorem seekTarget_bounds (nowT : ℚ) (w : SeekWhere) (e : Engine) (hd : 0 ≤ e.duration) :
    0 ≤ seekTarget nowT w e ∧ seekTarget nowT w e ≤ e.duration * 1000 := by
  unfold seekTarget
  dsimp only
  rw [(pause_fields nowT e).2.2.2.1]
  constructor
  · have h0 : (0 : ℚ) ≤
        min (max (resolveWhere w ((pause nowT e).pauseElapsedTime.getD 0 / 1000) e.duration) 0)
          e.duration :=
      le_min (le_max_right _ 0) hd
    nlinarith
  · have h1 :
        min (max (resolveWhere w ((pause nowT e).pauseElapsedTime.getD 0 / 1000) e.duration) 0)
          e.duration ≤ e.duration :=
      min_le_right _ _
    nlinarith

/-- `takeWhile` shortens a list that contains a failing element. -/
theorem takeWhile_length_lt {α : Type} (p : α → Bool) :
    ∀ l : List α, ∀ a ∈ l, p a = false → (l.takeWhile p).length < l.length := by
  intro l
  induction l with
  | nil => intro a ha; cases ha
  | cons x xs ih =>
    intro a ha hpa
    rw [List.takeWhile_cons]
    by_cases hx : p x = true
    · rw [if_pos hx]
      rcases List.mem_cons.mp ha with h1 | h2
      · subst h1; rw [hx] at hpa; cases hpa
      · simpa [Nat.succ_lt_succ_iff] using ih a h2 hpa
    · rw [if_neg hx]
      simp

/-- The last element survives any `drop` that keeps part of the list. -/
theorem getLast_mem_drop {α : Type} (l : List α) (h : l ≠ []) (n : ℕ) (hn : n < l.length) :
    l.getLast h ∈ l.drop n := by
  have hlen : l.length - 1 - n + n = l.length - 1 := by omega
  have hget : (l.drop n)[l.length - 1 - n]? = some (l.getLast h) := by
    rw [List.getElem?_drop]
    rw [show n + (l.length - 1 - n) = l.length - 1 from by omega]
    rw [List.getLast_eq_getElem]
    exact List.getElem?_eq_getElem (by omega)
  exact List.getElem?_mem hget

/-- On a non-decreasing list the seek scan keeps exactly the frames
strictly below the target. -/
theorem seekScan_filter (t : ℚ) :
    ∀ l : List Frame, l.Pairwise (fun a b : Frame => a.1 ≤ b.1) →
      seekScan t l = l.filter (fun f => decide (f.1 * 1000 < t)) := by
  intro l
  induction l with
  | nil => intro _; rfl
  | cons a l ih =>
    intro hs
    obtain ⟨ha, hl⟩ := List.pairwise_cons.mp hs
    by_cases hp : a.1 * 1000 < t
    · simp only [seekScan, List.takeWhile_cons, List.filter_cons, decide_eq_true hp, if_pos rfl]
      rw [show List.takeWhile (fun f => decide (f.1 * 1000 < t)) l = seekScan t l from rfl,
        ih hl]
      simp
    · have hall : ∀ b ∈ l, ¬((fun f : Frame => decide (f.1 * 1000 < t)) b = true) := by
        intro b hb
        have hab := ha b hb
        simp only [decide_eq_true_eq]
        intro hc
        exact hp (by nlinarith)
      simp only [seekScan, List.takeWhile_cons]
      rw [if_neg (by simpa using hp)]
      rw [List.filter_cons]
      rw [if_neg (by simpa using hp)]
      exact (List.filter_eq_nil_iff.mpr hall).symm

/-- After the seek scan at a target within the timeline, at least the
final frame remains pending. -/
theorem seekScan_keeps_last (e : Engine) (hwf : WellFormed e) (t : ℚ)
    (ht : t ≤ e.duration * 1000) (idx : ℕ) (hidx : idx < e.frames.length) :
    idx + (seekScan t (e.frames.drop idx)).length < e.frames.length := by
  have hlast : e.duration = (e.frames.getLast hwf.nonempty).1 :=
    hwf.durLast _ (List.getLast?_eq_getLast _ hwf.nonempty)
  have hmem : e.frames.getLast hwf.nonempty ∈ e.frames.drop idx :=
    getLast_mem_drop e.frames hwf.nonempty idx hidx
  have hfail : (fun f : Frame => decide (f.1 * 1000 < t)) (e.frames.getLast hwf.nonempty)
      = false := by
    simp only [decide_eq_false_iff_not]
    rw [← hlast]
    linarith
  have hlt := takeWhile_length_lt (fun f : Frame => decide (f.1 * 1000 < t))
    (e.frames.drop idx) _ hmem hfail
  rw [List.length_drop] at hlt
  unfold seekScan
  omega

/-- `scheduleNextFrame` with a frame still pending only arms the
timer. -/
theorem scheduleNextFrame_frame (nowT : ℚ) (e : Engine)
    (h : e.nextFrameIndex < e.frames.length) :
    scheduleNextFrame nowT e = ({ e with timeoutId := true }, []) := by
  unfold scheduleNextFrame
  rw [List.getElem?_eq_getElem h]

/-- `seek` on a paused engine with a forward (or equal) target: scan
from the cursor, record the target as the paused virtual time. -/
theorem seek_paused_fwd (nowT : ℚ) (w : SeekWhere) (e : Engine)
    (hiP : e.timeoutId = false) (hb : ¬ seekTarget nowT w e < e.elapsedVirtualTime) :
    seek nowT w e =
      ({ e with
          nextFrameIndex :=
            e.nextFrameIndex
              + (seekScan (seekTarget nowT w e) (e.frames.drop e.nextFrameIndex)).length,
          elapsedVirtualTime :=
            lastTimeOr e.elapsedVirtualTime
              (seekScan (seekTarget nowT w e) (e.frames.drop e.nextFrameIndex)),
          pauseElapsedTime := some (seekTarget nowT w e),
          effectiveStartAt := none },
       (seekScan (seekTarget nowT w e) (e.frames.drop e.nextFrameIndex)).map
         (fun f => Event.feed f.2)) := by
  unfold seek
  dsimp only
  rw [pause_of_paused nowT e hiP]
  rw [hiP]
  simp only [if_neg hb, Bool.false_eq_true, if_false]
  simp
  exact hiP

/-- `seek` on a paused engine with a backward target: feed the terminal
reset, zero the cursor, then scan from index 0. -/
theorem seek_paused_back (nowT : ℚ) (w : SeekWhere) (e : Engine)
    (hiP : e.timeoutId = false) (hb : seekTarget nowT w e < e.elapsedVirtualTime) :
    seek nowT w e =
      ({ e with
          nextFrameIndex := (seekScan (seekTarget nowT w e) e.frames).length,
          elapsedVirtualTime := lastTimeOr 0 (seekScan (seekTarget nowT w e) e.frames),
          pauseElapsedTime := some (seekTarget nowT w e),
          effectiveStartAt := none },
       Event.feed resetSeq ::
         (seekScan (seekTarget nowT w e) e.frames).map (fun f => Event.feed f.2)) := by
  unfold seek
  dsimp only
  rw [pause_of_paused nowT e hiP]
  rw [hiP]
  simp only [if_pos hb, Bool.false_eq_true, if_false]
  simp

/-- `seek` on a playing engine with a forward target: scan, then resume
(consuming the recorded target into the wall-clock anchor and re-arming
the timer, which exists because the last frame survives the scan). -/
theorem seek_playing_fwd (nowT : ℚ) (w : SeekWhere) (e : Engine)
    (hiP : e.timeoutId = true) (hb : ¬ seekTarget nowT w e < e.elapsedVirtualTime)
    (hlt : e.nextFrameIndex
        + (seekScan (seekTarget nowT w e) (e.frames.drop e.nextFrameIndex)).length
      < e.frames.length) :
    seek nowT w e =
      ({ e with
          nextFrameIndex :=
            e.nextFrameIndex
              + (seekScan (seekTarget nowT w e) (e.frames.drop e.nextFrameIndex)).length,
          elapsedVirtualTime :=
            lastTimeOr e.elapsedVirtualTime
              (seekScan (seekTarget nowT w e) (e.frames.drop e.nextFrameIndex)),
          pauseElapsedTime := none,
          effectiveStartAt := none,
          startTime := nowT - seekTarget nowT w e,
          timeoutId := true },
       (seekScan (seekTarget nowT w e) (e.frames.drop e.nextFrameIndex)).map
         (fun f => Event.feed f.2)) := by
  have hpause : pause nowT e
      = { e with timeoutId := false, pauseElapsedTime := some (nowT - e.startTime) } := by
    unfold pause
    rw [hiP]
    simp
  unfold seek
  dsimp only
  rw [hpause, hiP]
  dsimp only
  rw [if_pos rfl]
  simp only [if_neg hb]
  unfold resume
  dsimp only
  rw [scheduleNextFrame_frame]
  · simp
  · simpa using hlt

/-- `seek` on a playing engine with a backward target: reset, scan from
index 0, resume. -/
theorem seek_playing_back (nowT : ℚ) (w : SeekWhere) (e : Engine)
    (hiP : e.timeoutId = true) (hb : seekTarget nowT w e < e.elapsedVirtualTime)
    (hlt : (seekScan (seekTarget nowT w e) e.frames).length < e.frames.length) :
    seek nowT w e =
      ({ e with
          nextFrameIndex := (seekScan (seekTarget nowT w e) e.frames).length,
          elapsedVirtualTime := lastTimeOr 0 (seekScan (seekTarget nowT w e) e.frames),
          pauseElapsedTime := none,
          effectiveStartAt := none,
          startTime := nowT - seekTarget nowT w e,
          timeoutId := true },
       Event.feed resetSeq ::
         (seekScan (seekTarget nowT w e) e.frames).map (fun f => Event.feed f.2)) := by
  have hpause : pause nowT e
      = { e with timeoutId := false, pauseElapsedTime := some (nowT - e.startTime) } := by
    unfold pause
    rw [hiP]
    simp
  unfold seek
  dsimp only
  rw [hpause, hiP]
  dsimp only
  rw [if_pos rfl]
  simp only [if_pos hb]
  unfold resume
  dsimp only
  rw [scheduleNextFrame_frame]
  · simp
  · simpa using hlt

/-- **C4**: for every `seek(where)` on a well-formed (post-init) engine:
the resolved target is clamped to `[0, duration]` (in ms here); the
engine feeds a terminal reset and restarts the scan from a zeroed
cursor exactly when the target precedes the current virtual time; the
frames fed are exactly the not-yet-emitted frames whose adjusted time
is strictly below the target; `effectiveStartAt` is consumed; the
engine is playing afterwards iff it was before; and the target becomes
the paused virtual time (directly as `pauseElapsedTime` when paused,
consumed by the final `resume` into the wall-clock anchor
`startTime = now - target` when playing). -/
theorem c4_seek_contract (nowT : ℚ) (w : SeekWhere) (e : Engine) (hwf : WellFormed e) :
    (0 ≤ seekTarget nowT w e ∧ seekTarget nowT w e ≤ e.duration * 1000) ∧
    (seek nowT w e).1.effectiveStartAt = none ∧
    (seek nowT w e).1.timeoutId = e.timeoutId ∧
    (e.timeoutId = false →
      (seek nowT w e).1.pauseElapsedTime = some (seekTarget nowT w e)) ∧
    (e.timeoutId = true →
      (seek nowT w e).1.pauseElapsedTime = none ∧
      (seek nowT w e).1.startTime = nowT - seekTarget nowT w e) ∧
    (seekTarget nowT w e < e.elapsedVirtualTime →
      (seek nowT w e).2
        = Event.feed resetSeq ::
            (e.frames.filter (fun f => decide (f.1 * 1000 < seekTarget nowT w e))).map
              (fun f => Event.feed f.2) ∧
      (seek nowT w e).1.nextFrameIndex
        = (e.frames.filter (fun f => decide (f.1 * 1000 < seekTarget nowT w e))).length) ∧
    (¬ seekTarget nowT w e < e.elapsedVirtualTime →
      (seek nowT w e).2
        = ((e.frames.drop e.nextFrameIndex).filter
              (fun f => decide (f.1 * 1000 < seekTarget nowT w e))).map
            (fun f => Event.feed f.2) ∧
      (seek nowT w e).1.nextFrameIndex
        = e.nextFrameIndex
          + ((e.frames.drop e.nextFrameIndex).filter
              (fun f => decide (f.1 * 1000 < seekTarget nowT w e))).length) := by
  have hb0 := seekTarget_bounds nowT w e (wf_dur_nonneg e hwf)
  have hfull : seekScan (seekTarget nowT w e) e.frames
      = e.frames.filter (fun f => decide (f.1 * 1000 < seekTarget nowT w e)) :=
    seekScan_filter (seekTarget nowT w e) e.frames hwf.sorted
  have hsuffix : seekScan (seekTarget nowT w e) (e.frames.drop e.nextFrameIndex)
      = (e.frames.drop e.nextFrameIndex).filter
          (fun f => decide (f.1 * 1000 < seekTarget nowT w e)) :=
    seekScan_filter (seekTarget nowT w e) _
      (hwf.sorted.sublist (List.drop_sublist e.nextFrameIndex e.frames))
  by_cases hiP : e.timeoutId = true
  · by_cases hb : seekTarget nowT w e < e.elapsedVirtualTime
    · have hlt : (seekScan (seekTarget nowT w e) e.frames).length < e.frames.length := by
        have h0 : 0 < e.frames.length := List.length_pos.mpr hwf.nonempty
        simpa using seekScan_keeps_last e hwf (seekTarget nowT w e) hb0.2 0 h0
      rw [seek_playing_back nowT w e hiP hb hlt]
      refine ⟨hb0, by simp, by simp [hiP], ?_, ?_, ?_, ?_⟩
      · intro h; rw [hiP] at h; cases h
      · intro _; exact ⟨by simp, by simp⟩
      · intro _; exact ⟨by simp [hfull], by simp [hfull]⟩
      · intro h; exact absurd hb h
    · have hlt : e.nextFrameIndex
          + (seekScan (seekTarget nowT w e) (e.frames.drop e.nextFrameIndex)).length
          < e.frames.length :=
        seekScan_keeps_last e hwf (seekTarget nowT w e) hb0.2 e.nextFrameIndex
          (hwf.timerFrame hiP)
      rw [seek_playing_fwd nowT w e hiP hb hlt]
      refine ⟨hb0, by simp, by simp [hiP], ?_, ?_, ?_, ?_⟩
      · intro h; rw [hiP] at h; cases h
      · intro _; exact ⟨by simp, by simp⟩
      · intro h; exact absurd h hb
      · intro _; exact ⟨by simp [hsuffix], by simp [hsuffix]⟩
  · have hiP' : e.timeoutId = false := by simpa using hiP
    by_cases hb : seekTarget nowT w e < e.elapsedVirtualTime
    · rw [seek_paused_back nowT w e hiP' hb]
      refine ⟨hb0, by simp, by simp [hiP'], ?_, ?_, ?_, ?_⟩
      · intro _; simp
      · intro h; rw [hiP'] at h; cases h
      · intro _; exact ⟨by simp [hfull], by simp [hfull]⟩
      · intro h; exact absurd hb h
    · rw [seek_paused_fwd nowT w e hiP' hb]
      refine ⟨hb0, by simp, by simp [hiP'], ?_, ?_, ?_, ?_⟩
      · intro _; simp
      · intro h; rw [hiP'] at h; cases h
      · intro h; exact absurd h hb
      · intro _; exact ⟨by simp [hsuffix], by simp [hsuffix]⟩

/-- Witness for `c4_seek_contract` on a paused concrete engine. -/
theorem c4_seek_contract_witness :
    0 ≤ seekTarget 0 (SeekWhere.abs 1) twoFrameEngine ∧
    (seek 0 (SeekWhere.abs 1) twoFrameEngine).1.effectiveStartAt = none ∧
    (seek 0 (SeekWhere.abs 1) twoFrameEngine).1.timeoutId = twoFrameEngine.timeoutId := by
  have h := c4_seek_contract 0 (SeekWhere.abs 1) twoFrameEngine twoFrame_wf
  exact ⟨h.1.1, h.2.1, h.2.2.1⟩

/-! ## C9: seek to the same absolute target twice -/

/-- Every frame the seek scan feeds lies strictly below the target. -/
theorem seekScan_lt (t : ℚ) (l : List Frame) : ∀ x ∈ seekScan t l, x.1 * 1000 < t := by
  intro x hx
  simpa using List.mem_takeWhile_imp hx

/-- The virtual time recorded by the scan stays at most the target. -/
theorem lastTimeOr_le (base t : ℚ) (fed : List Frame) (hbase : base ≤ t)
    (hall : ∀ x ∈ fed, x.1 * 1000 < t) : lastTimeOr base fed ≤ t := by
  unfold lastTimeOr
  cases hg : fed.getLast? with
  | none => exact hbase
  | some f => exact le_of_lt (hall f (List.mem_of_getLast?_eq_some hg))

/-- Dropping the `takeWhile` prefix leaves the `dropWhile` suffix. -/
theorem drop_takeWhile_len {α : Type} (p : α → Bool) :
    ∀ l : List α, l.drop (l.takeWhile p).length = l.dropWhile p := by
  intro l
  induction l with
  | nil => rfl
  | cons a l ih =>
    by_cases h : p a
    · simp [List.takeWhile_cons, List.dropWhile_cons, h, ih]
    · simp [List.takeWhile_cons, List.dropWhile_cons, h]

/-- The suffix left by `dropWhile` starts with a failing element, so a
fresh `takeWhile` takes nothing. -/
theorem takeWhile_dropWhile_nil {α : Type} (p : α → Bool) :
    ∀ l : List α, (l.dropWhile p).takeWhile p = [] := by
  intro l
  induction l with
  | nil => rfl
  | cons a l ih =>
    by_cases h : p a
    · simpa [List.dropWhile_cons, h] using ih
    · simp [List.dropWhile_cons, List.takeWhile_cons, h]

/-- Re-scanning right after a scan finds nothing below the target. -/
theorem seekScan_after (t : ℚ) (l : List Frame) :
    seekScan t (l.drop (seekScan t l).length) = [] := by
  unfold seekScan
  rw [drop_takeWhile_len, takeWhile_dropWhile_nil]

/-- The target of an absolute seek: the clamp does not depend on the
current position. -/
theorem seekTarget_abs (nowT t : ℚ) (e : Engine) :
    seekTarget nowT (SeekWhere.abs t) e = min (max t 0) e.duration * 1000 := by
  unfold seekTarget
  dsimp only [resolveWhere]
  rw [(pause_fields nowT e).2.2.2.1]

/-- A seek whose target does not precede the virtual time and whose
scan finds nothing emits no events. -/
theorem seek_second_empty (nowT2 t : ℚ) (e1 : Engine)
    (hb2 : ¬ seekTarget nowT2 (SeekWhere.abs t) e1 < e1.elapsedVirtualTime)
    (hscan : seekScan (seekTarget nowT2 (SeekWhere.abs t) e1)
        (e1.frames.drop e1.nextFrameIndex) = [])
    (hok : e1.timeoutId = true → e1.nextFrameIndex < e1.frames.length) :
    (seek nowT2 (SeekWhere.abs t) e1).2 = [] := by
  by_cases hiP : e1.timeoutId = true
  · rw [seek_playing_fwd nowT2 _ e1 hiP hb2 (by rw [hscan]; simpa using hok hiP)]
    rw [hscan]
    rfl
  · rw [seek_paused_fwd nowT2 _ e1 (by simpa using hiP) hb2]
    rw [hscan]
    rfl

/-- **C9**: on a well-formed (post-init) engine, `seek(t); seek(t)` for
an absolute target feeds the same payload sequence as a single
`seek(t)`: given the identical target the second call emits nothing —
no frame feeds and no reset. -/
theorem c9_seek_idempotent (nowT1 nowT2 t : ℚ) (e : Engine) (hwf : WellFormed e) :
    (seek nowT2 (SeekWhere.abs t) (seek nowT1 (SeekWhere.abs t) e).1).2 = [] ∧
    (seek nowT1 (SeekWhere.abs t) e).2
        ++ (seek nowT2 (SeekWhere.abs t) (seek nowT1 (SeekWhere.abs t) e).1).2
      = (seek nowT1 (SeekWhere.abs t) e).2 := by
  have hd0 := wf_dur_nonneg e hwf
  have hb0' := seekTarget_bounds nowT1 (SeekWhere.abs t) e hd0
  have hM1 : seekTarget nowT1 (SeekWhere.abs t) e = min (max t 0) e.duration * 1000 :=
    seekTarget_abs nowT1 t e
  have hb0 : 0 ≤ min (max t 0) e.duration * 1000 ∧
      min (max t 0) e.duration * 1000 ≤ e.duration * 1000 := by
    rw [← hM1]
    exact hb0'
  suffices h2 : (seek nowT2 (SeekWhere.abs t) (seek nowT1 (SeekWhere.abs t) e).1).2 = [] by
    exact ⟨h2, by rw [h2, List.append_nil]⟩
  have h0 : 0 < e.frames.length := List.length_pos.mpr hwf.nonempty
  by_cases hiP : e.timeoutId = true
  · by_cases hb : min (max t 0) e.duration * 1000 < e.elapsedVirtualTime
    · have hlt : (seekScan (min (max t 0) e.duration * 1000) e.frames).length
          < e.frames.length := by
        simpa using seekScan_keeps_last e hwf _ hb0.2 0 h0
      have h1 := seek_playing_back nowT1 (SeekWhere.abs t) e hiP
        (by rw [hM1]; exact hb) (by rw [hM1]; exact hlt)
      rw [hM1] at h1
      rw [h1]
      apply seek_second_empty
      · rw [seekTarget_abs]
        dsimp only
        simp only [not_lt]
        exact lastTimeOr_le 0 _ _ hb0.1 (seekScan_lt _ _)
      · rw [seekTarget_abs]
        dsimp only
        exact seekScan_after _ _
      · intro _
        dsimp only
        exact hlt
    · have hlt : e.nextFrameIndex
          + (seekScan (min (max t 0) e.duration * 1000)
              (e.frames.drop e.nextFrameIndex)).length
          < e.frames.length :=
        seekScan_keeps_last e hwf _ hb0.2 e.nextFrameIndex (hwf.timerFrame hiP)
      have h1 := seek_playing_fwd nowT1 (SeekWhere.abs t) e hiP
        (by rw [hM1]; exact hb) (by rw [hM1]; exact hlt)
      rw [hM1] at h1
      rw [h1]
      apply seek_second_empty
      · rw [seekTarget_abs]
        dsimp only
        simp only [not_lt]
        exact lastTimeOr_le e.elapsedVirtualTime _ _ (not_lt.mp hb) (seekScan_lt _ _)
      · rw [seekTarget_abs]
        dsimp only
        rw [← List.drop_drop]
        exact seekScan_after _ _
      · intro _
        dsimp only
        exact hlt
  · have hiP' : e.timeoutId = false := by simpa using hiP
    by_cases hb : min (max t 0) e.duration * 1000 < e.elapsedVirtualTime
    · have h1 := seek_paused_back nowT1 (SeekWhere.abs t) e hiP' (by rw [hM1]; exact hb)
      rw [hM1] at h1
      rw [h1]
      apply seek_second_empty
      · rw [seekTarget_abs]
        dsimp only
        simp only [not_lt]
        exact lastTimeOr_le 0 _ _ hb0.1 (seekScan_lt _ _)
      · rw [seekTarget_abs]
        dsimp only
        exact seekScan_after _ _
      · intro h
        dsimp only at h
        rw [hiP'] at h
        cases h
    · have h1 := seek_paused_fwd nowT1 (SeekWhere.abs t) e hiP' (by rw [hM1]; exact hb)
      rw [hM1] at h1
      rw [h1]
      apply seek_second_empty
      · rw [seekTarget_abs]
        dsimp only
        simp only [not_lt]
        exact lastTimeOr_le e.elapsedVirtualTime _ _ (not_lt.mp hb) (seekScan_lt _ _)
      · rw [seekTarget_abs]
        dsimp only
        rw [← List.drop_drop]
        exact seekScan_after _ _
      · intro h
        dsimp only at h
        rw [hiP'] at h
        cases h

/-! ## C7: integer loop count -/

/-- Feeding with an overshot clock drains every remaining frame. -/
theorem runFrameGo_all (nowT sT : ℚ) :
    ∀ (rest : List Frame) (f : Frame),
      (∀ g ∈ rest, g.1 * 1000 < nowT - sT) →
      runFrameGo nowT sT f rest
        = ((f :: rest).map Prod.snd, (rest.getLastD f).1 * 1000) := by
  intro rest
  induction rest with
  | nil => intro f _; simp [runFrameGo, List.getLastD]
  | cons g rest2 ih =>
    intro f hall
    have hg : nowT - sT > g.1 * 1000 := hall g (List.mem_cons_self g rest2)
    rw [show runFrameGo nowT sT f (g :: rest2)
        = (f.2 :: (runFrameGo nowT sT g rest2).1, (runFrameGo nowT sT g rest2).2) from by
      simp [runFrameGo, hg]]
    rw [ih g (fun x hx => hall x (List.mem_cons_of_mem g hx))]
    simp only [List.getLastD_eq_getLast?, List.map_cons, Prod.mk.injEq, true_and]
    cases rest2 with
    | nil => simp
    | cons x xs =>
      cases hx : (x :: xs).getLast? with
      | none => simp at hx
      | some a => simp [hx]

/-- A timer firing with an overshot clock mid-loop: the whole timeline
is fed and the loop restarts (cursor zeroed, wall clock re-anchored,
terminal reset fed). -/
theorem fire_round_continue (f : Frame) (rest : List Frame)
    (k c : ℕ) (hc : c + 1 < k) (dur anchor evt nowT : ℚ)
    (hdur : ∀ x ∈ f :: rest, x.1 ≤ dur) (hnow : dur * 1000 < nowT - anchor) :
    fire nowT (playingAt (f :: rest) k dur anchor evt c)
      = (playingAt (f :: rest) k dur nowT ((rest.getLastD f).1 * 1000) (c + 1),
         (f :: rest).map (fun x => Event.feed x.2) ++ [Event.feed resetSeq]) := by
  have hall : ∀ g ∈ rest, g.1 * 1000 < nowT - anchor := by
    intro g hg
    have h1 : g.1 ≤ dur := hdur g (List.mem_cons_of_mem f hg)
    nlinarith
  unfold fire
  dsimp only [playingAt]
  simp only [List.getElem?_cons_zero]
  rw [show ((f :: rest).drop (0 + 1)) = rest from by simp]
  rw [runFrameGo_all nowT anchor rest f hall]
  unfold scheduleNextFrame
  rw [List.getElem?_eq_none (by simp)]
  dsimp only [loopContinue]
  rw [decide_eq_true hc]
  simp only [List.getElem?_cons_zero]
  simp [playingAt, List.map_map]

/-- A timer firing with an overshot clock on the final replay: the
whole timeline is fed and playback stops with reason `ended`. -/
theorem fire_round_stop (f : Frame) (rest : List Frame)
    (k c : ℕ) (hc : ¬ c + 1 < k) (dur anchor evt nowT : ℚ)
    (hdur : ∀ x ∈ f :: rest, x.1 ≤ dur) (hnow : dur * 1000 < nowT - anchor) :
    fire nowT (playingAt (f :: rest) k dur anchor evt c)
      = ({ stoppedAt (f :: rest) k dur anchor ((rest.getLastD f).1 * 1000) with
            playCount := c + 1 },
         (f :: rest).map (fun x => Event.feed x.2)
           ++ [Event.setState ("stopped") ("ended")]) := by
  have hall : ∀ g ∈ rest, g.1 * 1000 < nowT - anchor := by
    intro g hg
    have h1 : g.1 ≤ dur := hdur g (List.mem_cons_of_mem f hg)
    nlinarith
  unfold fire
  dsimp only [playingAt]
  simp only [List.getElem?_cons_zero]
  rw [show ((f :: rest).drop (0 + 1)) = rest from by simp]
  rw [runFrameGo_all nowT anchor rest f hall]
  unfold scheduleNextFrame
  rw [List.getElem?_eq_none (by simp)]
  dsimp only [loopContinue]
  rw [decide_eq_false hc]
  dsimp only [stopEnded]
  simp [stoppedAt, List.map_map]

/-- One step of `fireSeq`. -/
theorem fireSeq_cons (t : ℚ) (ts : List ℚ) (e : Engine) :
    fireSeq (t :: ts) e
      = ((fireSeq ts (fire t e).1).1, (fire t e).2 ++ (fireSeq ts (fire t e).1).2) := rfl

/-- Iterating overshot firings under `loop = count k`: the `r` remaining
replays run back-to-back and end in the stopped state with `playCount`
saturated at `k`. -/
theorem fireSeq_count (f : Frame) (rest : List Frame) (k : ℕ)
    (dur : ℚ) (hdur : ∀ x ∈ f :: rest, x.1 ≤ dur) :
    ∀ (r c : ℕ), 1 ≤ r → c + r = k → ∀ (anchor evt : ℚ),
      fireSeq (clockSeq (dur * 1000) r anchor) (playingAt (f :: rest) k dur anchor evt c)
        = (stoppedAt (f :: rest) k dur (anchor + ((r : ℚ) - 1) * (dur * 1000 + 1))
             ((rest.getLastD f).1 * 1000),
           replayEvents (f :: rest) r) := by
  intro r
  induction r with
  | zero => intro c h1; exact absurd h1 (by omega)
  | succ r' ih =>
    intro c _ hck anchor evt
    cases r' with
    | zero =>
      rw [show clockSeq (dur * 1000) 1 anchor = [anchor + (dur * 1000 + 1)] from rfl]
      rw [fireSeq_cons]
      rw [fire_round_stop f rest k c (by omega) dur anchor evt
        (anchor + (dur * 1000 + 1)) hdur (by linarith)]
      have hpc : c + 1 = k := by omega
      dsimp only [fireSeq]
      rw [hpc]
      simp only [Prod.mk.injEq]
      constructor
      · simp only [stoppedAt]
        norm_num
      · rw [List.append_nil]
        rfl
    | succ r'' =>
      have hc : c + 1 < k := by omega
      rw [show clockSeq (dur * 1000) (r'' + 1 + 1) anchor
          = (anchor + (dur * 1000 + 1))
            :: clockSeq (dur * 1000) (r'' + 1) (anchor + (dur * 1000 + 1)) from rfl]
      rw [fireSeq_cons]
      rw [fire_round_continue f rest k c hc dur anchor evt
        (anchor + (dur * 1000 + 1)) hdur (by linarith)]
      dsimp only
      rw [ih (c + 1) (by omega) (by omega) (anchor + (dur * 1000 + 1))
        ((rest.getLastD f).1 * 1000)]
      simp only [Prod.mk.injEq]
      constructor
      · have harith : anchor + (dur * 1000 + 1) + (((r'' + 1 : ℕ) : ℚ) - 1) * (dur * 1000 + 1)
            = anchor + (((r'' + 1 + 1 : ℕ) : ℚ) - 1) * (dur * 1000 + 1) := by
          push_cast
          ring
        rw [harith]
      · rw [show replayEvents (f :: rest) (r'' + 1 + 1)
            = (f :: rest).map (fun x => Event.feed x.2) ++ [Event.feed resetSeq]
              ++ replayEvents (f :: rest) (r'' + 1) from rfl]

/-- Iterating overshot firings while replays remain: each intermediate
completion resets the cursor to 0, re-anchors the wall clock at the
firing time and feeds the terminal reset before continuing. -/
theorem fireSeq_partial (f : Frame) (rest : List Frame) (k : ℕ)
    (dur : ℚ) (hdur : ∀ x ∈ f :: rest, x.1 ≤ dur) :
    ∀ (j c : ℕ), 1 ≤ j → c + j < k → ∀ (anchor evt : ℚ),
      fireSeq (clockSeq (dur * 1000) j anchor) (playingAt (f :: rest) k dur anchor evt c)
        = (playingAt (f :: rest) k dur (anchor + (j : ℚ) * (dur * 1000 + 1))
             ((rest.getLastD f).1 * 1000) (c + j),
           replaysSoFar (f :: rest) j) := by
  intro j
  induction j with
  | zero => intro c h1; exact absurd h1 (by omega)
  | succ j' ih =>
    intro c _ hck anchor evt
    cases j' with
    | zero =>
      rw [show clockSeq (dur * 1000) 1 anchor = [anchor + (dur * 1000 + 1)] from rfl]
      rw [fireSeq_cons]
      rw [fire_round_continue f rest k c (by omega) dur anchor evt
        (anchor + (dur * 1000 + 1)) hdur (by linarith)]
      dsimp only [fireSeq]
      simp only [Prod.mk.injEq]
      constructor
      · norm_num
      · rw [List.append_nil]
        simp [replaysSoFar]
    | succ j'' =>
      rw [show clockSeq (dur * 1000) (j'' + 1 + 1) anchor
          = (anchor + (dur * 1000 + 1))
            :: clockSeq (dur * 1000) (j'' + 1) (anchor + (dur * 1000 + 1)) from rfl]
      rw [fireSeq_cons]
      rw [fire_round_continue f rest k c (by omega) dur anchor evt
        (anchor + (dur * 1000 + 1)) hdur (by linarith)]
      dsimp only
      rw [ih (c + 1) (by omega) (by omega) (anchor + (dur * 1000 + 1))
        ((rest.getLastD f).1 * 1000)]
      simp only [Prod.mk.injEq]
      constructor
      · have harith : anchor + (dur * 1000 + 1) + ((j'' + 1 : ℕ) : ℚ) * (dur * 1000 + 1)
            = anchor + ((j'' + 1 + 1 : ℕ) : ℚ) * (dur * 1000 + 1) := by
          push_cast
          ring
        rw [harith, show c + 1 + (j'' + 1) = c + (j'' + 1 + 1) from by omega]
      · rw [show replaysSoFar (f :: rest) (j'' + 1 + 1)
            = ((f :: rest).map (fun x => Event.feed x.2) ++ [Event.feed resetSeq])
              ++ replaysSoFar (f :: rest) (j'' + 1) from by
          simp [replaysSoFar, List.replicate_succ]]

/-- Starting playback on a freshly initialised engine with a pending
start offset 0: the offset is consumed by a seek that feeds nothing,
and the timer is armed at cursor 0 with the wall clock anchored at the
call time. -/
theorem play_fresh (f : Frame) (rest : List Frame) (k : ℕ) (dur : ℚ)
    (hd0 : 0 ≤ dur) (hf0 : 0 ≤ f.1) (t0 : ℚ) :
    play t0 (freshEngine (f :: rest) dur 0 (Loop.count k))
      = (playingAt (f :: rest) k dur t0 0 0, []) := by
  have hT : seekTarget t0 (SeekWhere.abs 0) (freshEngine (f :: rest) dur 0 (Loop.count k))
      = 0 := by
    rw [seekTarget_abs]
    dsimp only [freshEngine]
    rw [max_self, min_eq_left hd0]
    ring
  have hb : ¬ seekTarget t0 (SeekWhere.abs 0) (freshEngine (f :: rest) dur 0 (Loop.count k))
      < (freshEngine (f :: rest) dur 0 (Loop.count k)).elapsedVirtualTime := by
    rw [hT]
    dsimp only [freshEngine]
    exact lt_irrefl 0
  have hseek := seek_paused_fwd t0 (SeekWhere.abs 0)
    (freshEngine (f :: rest) dur 0 (Loop.count k)) rfl hb
  rw [hT] at hseek
  have hscan : seekScan 0 ((freshEngine (f :: rest) dur 0 (Loop.count k)).frames.drop
      (freshEngine (f :: rest) dur 0 (Loop.count k)).nextFrameIndex) = [] := by
    dsimp only [freshEngine]
    rw [List.drop_zero]
    unfold seekScan
    rw [List.takeWhile_cons, if_neg (by simp; nlinarith)]
  rw [hscan] at hseek
  unfold play
  rw [if_neg (by simp [freshEngine])]
  rw [show (freshEngine (f :: rest) dur 0 (Loop.count k)).frames[(freshEngine (f :: rest)
      dur 0 (Loop.count k)).nextFrameIndex]? = some f from by
    dsimp only [freshEngine]
    simp]
  dsimp only
  rw [show (freshEngine (f :: rest) dur 0 (Loop.count k)).effectiveStartAt
      = some 0 from rfl]
  dsimp only
  rw [hseek]
  dsimp only
  unfold resume
  dsimp only
  rw [scheduleNextFrame_frame _ _ (by simp [freshEngine])]
  simp [freshEngine, playingAt, lastTimeOr]

/-- Witness for `c9_seek_idempotent` on a concrete engine and target. -/
theorem c9_seek_idempotent_witness :
    (seek 1 (SeekWhere.abs 1) (seek 0 (SeekWhere.abs 1) twoFrameEngine).1).2 = [] :=
  (c9_seek_idempotent 0 1 1 twoFrameEngine twoFrame_wf).1


/-- **C7**: with `loop = k` (`k ≥ 1`) and playback started once on a
freshly initialised engine, firing the pending timer with a wall clock
that has overtaken the whole timeline replays the timeline exactly `k`
times and then transitions to the stopped state with reason `ended`
(`playCount = k` and no timer pending, so no `(k+1)`-th replay can
start); each intermediate completion resets the cursor to 0, re-anchors
the wall clock at the firing time and feeds a terminal reset before
continuing directly into the next replay. -/
theorem c7_loop_count (k : ℕ) (hk : 1 ≤ k) (f : Frame) (rest : List Frame)
    (hs : (f :: rest).Pairwise (fun a b : Frame => a.1 ≤ b.1)) (hf0 : 0 ≤ f.1)
    (dur : ℚ) (hdur : dur = (rest.getLastD f).1) (t0 : ℚ) :
    play t0 (freshEngine (f :: rest) dur 0 (Loop.count k))
      = (playingAt (f :: rest) k dur t0 0 0, []) ∧
    fireSeq (clockSeq (dur * 1000) k t0) (playingAt (f :: rest) k dur t0 0 0)
      = (stoppedAt (f :: rest) k dur (t0 + ((k : ℚ) - 1) * (dur * 1000 + 1))
           ((rest.getLastD f).1 * 1000),
         replayEvents (f :: rest) k) ∧
    (stoppedAt (f :: rest) k dur (t0 + ((k : ℚ) - 1) * (dur * 1000 + 1))
        ((rest.getLastD f).1 * 1000)).timeoutId = false ∧
    (stoppedAt (f :: rest) k dur (t0 + ((k : ℚ) - 1) * (dur * 1000 + 1))
        ((rest.getLastD f).1 * 1000)).playCount = k ∧
    (∀ j, j + 1 < k →
      fireSeq (clockSeq (dur * 1000) (j + 1) t0) (playingAt (f :: rest) k dur t0 0 0)
        = (playingAt (f :: rest) k dur (t0 + ((j + 1 : ℕ) : ℚ) * (dur * 1000 + 1))
             ((rest.getLastD f).1 * 1000) (j + 1),
           replaysSoFar (f :: rest) (j + 1))) := by
  have hgl : rest.getLastD f = (f :: rest).getLast (List.cons_ne_nil f rest) :=
    (List.getLast_eq_getLastD f rest (List.cons_ne_nil f rest)).symm
  have hall : ∀ x ∈ f :: rest, x.1 ≤ dur := by
    intro x hx
    rw [hdur, hgl]
    exact time_le_getLast (f :: rest) (List.cons_ne_nil f rest) hs x hx
  have hd0 : 0 ≤ dur := by
    have := hall f (List.mem_cons_self f rest)
    linarith
  refine ⟨play_fresh f rest k dur hd0 hf0 t0, ?_, rfl, rfl, ?_⟩
  · exact fireSeq_count f rest k dur hall k 0 hk (by omega) t0 0
  · intro j hj
    simpa using fireSeq_partial f rest k dur hall (j + 1) 0 (by omega) (by omega) t0 0

/-- Witness for `c7_loop_count`: two frames, `loop = 2`. -/
theorem c7_loop_count_witness :
    fireSeq (clockSeq (2 * 1000) 2 0) (playingAt [(0, "a"), (2, "b")] 2 2 0 0 0)
      = (stoppedAt [(0, "a"), (2, "b")] 2 2 (0 + ((2 : ℚ) - 1) * (2 * 1000 + 1)) (2 * 1000),
         replayEvents [(0, "a"), (2, "b")] 2) := by
  have h := c7_loop_count 2 (by norm_num) (0, "a") [(2, "b")]
    (by norm_num [List.pairwise_cons]) (by norm_num) 2 (by simp [List.getLastD]) 0
  simpa [List.getLastD] using h.2.1

end Recording
